import Mathlib

/-!
Shallow embedding of the core logic of `bijection_mapping.py`: the power-set
enumerator `PowerSetBijectionVisualization.update_power_set`, and the
sphere-placement worker `VisualizationWorker.run` with its cooperative
cancellation protocol, together with theorems settling the specification
claims about them.
-/

namespace BitSphere

/-! ## Binary string formatting

Python's `format(i, f'0{n}b')` (source line 262) renders `i` in base 2 with
no leading zeros (with `"0"` for `i = 0`), then left-pads the result with
the character `'0'` to width `n`.  We embed strings of `'0'`/`'1'`
characters as `List Char`. -/

/-- Repeated halving with explicit fuel, so that the definition is
structurally recursive (and hence reduces inside `decide`/`rfl`).
`i ≤ fuel` suffices for the fuel never to run out. -/
def natToBinRevFuel : ℕ → ℕ → List Char
  | 0, _ => []
  | fuel + 1, i =>
    if i = 0 then []
    else (if i % 2 = 1 then '1' else '0') :: natToBinRevFuel fuel (i / 2)

/-- Binary digits of `i`, least-significant first; empty for `0`.  This is
the digit stream produced by repeated division by two, mirroring the base-2
conversion inside Python's `format(i, 'b')`. -/
def natToBinRev (i : ℕ) : List Char :=
  natToBinRevFuel i i

/-- Unpadded binary rendering of `i`, most-significant bit first, as
`format(i, 'b')` produces it (`"0"` for `i = 0`). -/
def natToBin (i : ℕ) : List Char :=
  if i = 0 then ['0'] else (natToBinRev i).reverse

/-- Embedding of `format(i, f'0{n}b')` (source line 262): the unpadded
binary rendering of `i`, left-padded with `'0'` to width `n`. -/
def formatBin (n i : ℕ) : List Char :=
  List.replicate (n - (natToBin i).length) '0' ++ natToBin i

/-- Embedding of Python's `int(s, 2)` (used at source line 324 to decode the
selected binary string): fold the characters most-significant first,
doubling and adding the bit value. -/
def parseBin (s : List Char) : ℕ :=
  s.foldl (fun acc c => 2 * acc + (if c = '1' then 1 else 0)) 0

/-! ### The padded rendering as a most-significant-first bit map -/

/-- Width-`n` bit list of `i`, least-significant bit first. -/
def bitsRev (n i : ℕ) : List Char :=
  (List.range n).map (fun k => if i.testBit k then '1' else '0')

/-! ## The enumerator `update_power_set`

Source lines 255-273: for each `i in range(2 ** n)` the method computes
`binary = format(i, f'0{n}b')`, the subset
`[self.base_set[j] for j in range(n) if binary[j] == '1']`, the display
string (`"∅"` for the empty subset, otherwise a brace-delimited
comma-joined list), and appends the tuple
`(subset, subset_str, binary, i)` to the `power_set` list. -/

/-- One row of the `power_set` list built at source line 273:
the tuple `(subset, subset_str, binary, i)`. -/
structure SubsetRecord where
  subset : List String
  subset_str : String
  binary : List Char
  decimal : ℕ
deriving Repr, DecidableEq

instance : Inhabited SubsetRecord := ⟨⟨[], "", [], 0⟩⟩

/-- Embedding of the comprehension at source line 265:
`[self.base_set[j] for j in range(n) if binary[j] == '1']`. -/
def subsetOf (base_set : List String) (binary : List Char) : List String :=
  ((List.range base_set.length).filter
    (fun j => binary.getD j ' ' = '1')).map (fun j => base_set.getD j "")

/-- The body of the loop at source lines 260-273 for one index `i`. -/
def mkRecord (base_set : List String) (i : ℕ) : SubsetRecord :=
  let n := base_set.length
  let binary := formatBin n i
  let subset := subsetOf base_set binary
  let subset_str :=
    if subset.length = 0 then "∅"
    else "\x7b" ++ String.intercalate ", " subset ++ "\x7d"
  ⟨subset, subset_str, binary, i⟩

/-- Embedding of `PowerSetBijectionVisualization.update_power_set`
(source lines 255-273): the full ordered `power_set` list. -/
def update_power_set (base_set : List String) : List SubsetRecord :=
  (List.range (2 ^ base_set.length)).map (mkRecord base_set)

/-! ## The placement worker `VisualizationWorker.run`

Source lines 34-67.  The loop body computes, for each `i in range(2 ** n)`,
`theta = (i / (2 ** n)) * 2 * np.pi`, `phi = np.pi / 3`, the power-set
point `(sin(phi)*cos(theta), sin(phi)*sin(theta), cos(phi))` and, with
`phi2 = np.pi - phi`, the binary point
`(sin(phi2)*cos(theta), sin(phi2)*sin(theta), cos(phi2))`.  The loop
checks `isInterruptionRequested()` once before each index and once more
before emitting; an observed interruption makes `run` return with nothing
emitted.  We embed the floating-point arithmetic over the exact reals and
the interruption flag as the boolean value observed at the `t`-th check
(`t = i` for the check guarding index `i`, `t = 2 ^ n` for the final
pre-emission check). -/

/-- Azimuth of index `i`, source line 43: `(i / (2 ** n)) * 2 * np.pi`. -/
noncomputable def theta (n i : ℕ) : ℝ :=
  ((i : ℝ) / ((2 : ℝ) ^ n)) * 2 * Real.pi

/-- Polar angle, source line 44: `phi = np.pi / 3`. -/
noncomputable def phi : ℝ := Real.pi / 3

/-- Complementary polar angle, source line 50: `phi2 = np.pi - phi`. -/
noncomputable def phi2 : ℝ := Real.pi - phi

/-- Power-set point of index `i`, source lines 45-48. -/
noncomputable def power_point (n i : ℕ) : ℝ × ℝ × ℝ :=
  (Real.sin phi * Real.cos (theta n i),
   Real.sin phi * Real.sin (theta n i),
   Real.cos phi)

/-- Binary-string point of index `i`, source lines 51-54. -/
noncomputable def binary_point (n i : ℕ) : ℝ × ℝ × ℝ :=
  (Real.sin phi2 * Real.cos (theta n i),
   Real.sin phi2 * Real.sin (theta n i),
   Real.cos phi2)

/-- Constructor arguments of `VisualizationWorker` (source lines 27-32). -/
structure WorkerInput where
  base_set : List String
  current_index : ℕ
  show_labels : Bool
  show_connections : Bool

/-- Payload of the `updated` signal (source lines 25 and 60-67). -/
structure Updated where
  power_set_positions : List (ℝ × ℝ × ℝ)
  binary_positions : List (ℝ × ℝ × ℝ)
  n : ℕ
  current_index : ℕ
  show_labels : Bool
  show_connections : Bool

/-- One iteration of the loop at source lines 38-54: check the
interruption flag, then append the two points for index `i`.  A `none`
accumulator records that the loop already returned early. -/
noncomputable def loopStep (n : ℕ) (interrupted : ℕ → Bool)
    (acc : Option (List (ℝ × ℝ × ℝ) × List (ℝ × ℝ × ℝ))) (i : ℕ) :
    Option (List (ℝ × ℝ × ℝ) × List (ℝ × ℝ × ℝ)) :=
  match acc with
  | none => none
  | some (ps, bl) =>
    if interrupted i then none
    else some (ps ++ [power_point n i], bl ++ [binary_point n i])

/-- Embedding of `VisualizationWorker.run` (source lines 34-67):
`none` when the method returns without emitting (interruption observed),
`some u` when it emits the `updated` signal with payload `u`. -/
noncomputable def VisualizationWorker.run (w : WorkerInput)
    (interrupted : ℕ → Bool) : Option Updated :=
  let n := w.base_set.length
  match (List.range (2 ^ n)).foldl (loopStep n interrupted)
      (some ([], [])) with
  | none => none
  | some (ps, bl) =>
    if interrupted (2 ^ n) then none
    else some ⟨ps, bl, n, w.current_index, w.show_labels, w.show_connections⟩

/-! ## The worker-restart protocol of `update_3d_visualization`

Source lines 318-337: on a new visualization request the handler runs
`if worker is not None and worker.isRunning(): worker.quit(); worker.wait()`
and then constructs and starts a fresh `VisualizationWorker`.
`QThread.quit()` only asks the thread's event loop to exit, and
`VisualizationWorker.run` overrides `run()` without an event loop, so
`quit()` has no effect on the running loop; `requestInterruption()` is
called nowhere in the source, so `isInterruptionRequested()` observes
`false` at every check of every worker.  `wait()` joins, so the first
worker runs to completion — and, never interrupted, emits its `updated`
signal — before the second worker starts; both `updated` signals are
connected to `draw_visualization`, which therefore receives the
emissions in start order. -/

/-- Results delivered to `draw_visualization` when a second request is
issued while the first worker is still running, modelled from the source
as described above: both workers run with an all-`false` interruption
history and every emission is delivered, in start order. -/
noncomputable def scenario_delivered (w₁ w₂ : WorkerInput) : List Updated :=
  (VisualizationWorker.run w₁ (fun _ => false)).toList ++
  (VisualizationWorker.run w₂ (fun _ => false)).toList

/-! ### Basic lemmas about the binary rendering -/

theorem natToBinRevFuel_congr :
    ∀ i f₁ f₂, i ≤ f₁ → i ≤ f₂ →
      natToBinRevFuel f₁ i = natToBinRevFuel f₂ i := by
  intro i
  induction i using Nat.strong_induction_on with
  | _ i ih =>
    intro f₁ f₂ h₁ h₂
    match i with
    | 0 =>
      match f₁, f₂ with
      | 0, 0 => rfl
      | 0, b + 1 => simp [natToBinRevFuel]
      | a + 1, 0 => simp [natToBinRevFuel]
      | a + 1, b + 1 => simp [natToBinRevFuel]
    | j + 1 =>
      match f₁, f₂ with
      | a + 1, b + 1 =>
        have hdiv : (j + 1) / 2 < j + 1 :=
          Nat.div_lt_self (Nat.succ_pos j) (by norm_num)
        have ha : (j + 1) / 2 ≤ a := by omega
        have hb : (j + 1) / 2 ≤ b := by omega
        simp only [natToBinRevFuel, if_neg (Nat.succ_ne_zero j)]
        rw [ih ((j + 1) / 2) hdiv a b ha hb]

theorem natToBinRev_zero : natToBinRev 0 = [] := rfl

theorem natToBinRev_succ (j : ℕ) :
    natToBinRev (j + 1) =
      (if (j + 1) % 2 = 1 then '1' else '0') :: natToBinRev ((j + 1) / 2) := by
  have hdiv : (j + 1) / 2 < j + 1 :=
    Nat.div_lt_self (Nat.succ_pos j) (by norm_num)
  show natToBinRevFuel (j + 1) (j + 1) = _
  simp only [natToBinRevFuel, if_neg (Nat.succ_ne_zero j)]
  rw [natToBinRevFuel_congr ((j + 1) / 2) j ((j + 1) / 2) (by omega)
    (Nat.le_refl _)]
  rfl

theorem parseBin_append (l₁ l₂ : List Char) :
    parseBin (l₁ ++ l₂) =
      l₂.foldl (fun acc c => 2 * acc + (if c = '1' then 1 else 0))
        (parseBin l₁) := by
  simp [parseBin, List.foldl_append]

theorem parseBin_replicate_zero_append (k : ℕ) (l : List Char) :
    parseBin (List.replicate k '0' ++ l) = parseBin l := by
  induction k with
  | zero => simp
  | succ m ih =>
    simpa [List.replicate_succ, parseBin] using ih

theorem parseBin_concat (l : List Char) (c : Char) :
    parseBin (l ++ [c]) = 2 * parseBin l + (if c = '1' then 1 else 0) := by
  simp [parseBin_append, parseBin]

theorem parseBin_natToBinRev_reverse (i : ℕ) :
    parseBin (natToBinRev i).reverse = i := by
  induction i using Nat.strong_induction_on with
  | _ i ih =>
    match i with
    | 0 => simp [natToBinRev_zero, parseBin]
    | j + 1 =>
      rw [natToBinRev_succ]
      have hlt : (j + 1) / 2 < j + 1 := Nat.div_lt_self (Nat.succ_pos j) (by norm_num)
      have ihd := ih ((j + 1) / 2) hlt
      rw [List.reverse_cons, parseBin_concat, ihd]
      rcases Nat.mod_two_eq_zero_or_one (j + 1) with h | h
      · rw [h]
        have h0 : (if (0 : ℕ) = 1 then '1' else '0') = '0' := by decide
        rw [h0, if_neg (by decide : ¬('0' = '1'))]
        omega
      · rw [h, if_pos rfl, if_pos rfl]
        omega

theorem parseBin_natToBin (i : ℕ) : parseBin (natToBin i) = i := by
  by_cases h : i = 0
  · simp [natToBin, h, parseBin]
  · simp [natToBin, h, parseBin_natToBinRev_reverse]

theorem parseBin_formatBin (n i : ℕ) : parseBin (formatBin n i) = i := by
  rw [formatBin, parseBin_replicate_zero_append, parseBin_natToBin]

theorem bitsRev_zero (n : ℕ) : bitsRev n 0 = List.replicate n '0' := by
  apply List.eq_replicate_iff.mpr
  constructor
  · simp [bitsRev]
  · intro c hc
    simp only [bitsRev, List.mem_map] at hc
    obtain ⟨k, _, hk⟩ := hc
    simpa [Nat.zero_testBit] using hk.symm

theorem natToBinRev_length_le (n : ℕ) :
    ∀ i, i < 2 ^ n → (natToBinRev i).length ≤ n := by
  induction n with
  | zero =>
    intro i hi
    interval_cases i
    simp [natToBinRev_zero]
  | succ m ih =>
    intro i hi
    match i with
    | 0 => simp [natToBinRev_zero]
    | j + 1 =>
      rw [natToBinRev_succ]
      have hdiv : (j + 1) / 2 < 2 ^ m := by
        have h2 : j + 1 < 2 ^ (m + 1) := hi
        rw [pow_succ] at h2
        omega
      simpa using ih ((j + 1) / 2) hdiv

theorem bitsRev_succ_pos (m j : ℕ) :
    bitsRev (m + 1) (j + 1) =
      (if (j + 1) % 2 = 1 then '1' else '0') :: bitsRev m ((j + 1) / 2) := by
  have hhead : (if (j + 1).testBit 0 then '1' else '0') =
      (if (j + 1) % 2 = 1 then '1' else '0') := by
    simp [Nat.testBit_zero]
  rw [bitsRev, List.range_succ_eq_map, List.map_cons, List.map_map, hhead]
  congr 1
  apply List.map_congr_left
  intro k _
  simp [Function.comp, Nat.testBit_succ]

theorem bitsRev_eq_natToBinRev_pad (n : ℕ) :
    ∀ i, i < 2 ^ n →
      bitsRev n i = natToBinRev i ++
        List.replicate (n - (natToBinRev i).length) '0' := by
  induction n with
  | zero =>
    intro i hi
    interval_cases i
    simp [bitsRev, natToBinRev_zero]
  | succ m ih =>
    intro i hi
    match i with
    | 0 =>
      rw [bitsRev_zero]
      simp [natToBinRev_zero]
    | j + 1 =>
      have hdiv : (j + 1) / 2 < 2 ^ m := by
        have h2 : j + 1 < 2 ^ m * 2 := by
          rw [← pow_succ]
          exact hi
        omega
      have hrec := ih ((j + 1) / 2) hdiv
      rw [bitsRev_succ_pos, hrec, natToBinRev_succ]
      simp only [List.cons_append, List.length_cons]
      have hc : m + 1 - ((natToBinRev ((j + 1) / 2)).length + 1) =
          m - (natToBinRev ((j + 1) / 2)).length := by omega
      rw [hc]

theorem formatBin_eq_bitsRev_reverse (n i : ℕ) (hn : 1 ≤ n) (hi : i < 2 ^ n) :
    formatBin n i = (bitsRev n i).reverse := by
  by_cases h : i = 0
  · subst h
    rw [bitsRev_zero, List.reverse_replicate, formatBin, natToBin, if_pos rfl]
    have hn1 : n - 1 + 1 = n := by omega
    calc List.replicate (n - List.length ['0']) '0' ++ ['0']
        = List.replicate (n - 1) '0' ++ List.replicate 1 '0' := by
          simp
      _ = List.replicate (n - 1 + 1) '0' := (List.replicate_add (n - 1) 1 '0').symm
      _ = List.replicate n '0' := by rw [hn1]
  · rw [bitsRev_eq_natToBinRev_pad n i hi, List.reverse_append,
      List.reverse_replicate, formatBin, natToBin, if_neg h]
    simp

theorem formatBin_length (n i : ℕ) (hn : 1 ≤ n) (hi : i < 2 ^ n) :
    (formatBin n i).length = n := by
  rw [formatBin_eq_bitsRev_reverse n i hn hi]
  simp [bitsRev]

theorem formatBin_getD (n i j : ℕ) (hn : 1 ≤ n) (hi : i < 2 ^ n)
    (hj : j < n) :
    (formatBin n i).getD j ' ' =
      (if i.testBit (n - 1 - j) then '1' else '0') := by
  rw [formatBin_eq_bitsRev_reverse n i hn hi]
  have hlen : (bitsRev n i).length = n := by simp [bitsRev]
  have hj' : j < (bitsRev n i).reverse.length := by simp [hlen, hj]
  rw [List.getD_eq_getElem _ _ hj', List.getElem_reverse]
  simp only [bitsRev, List.getElem_map, List.getElem_range, List.length_map,
    List.length_range]

theorem update_power_set_length (base_set : List String) :
    (update_power_set base_set).length = 2 ^ base_set.length := by
  simp [update_power_set]

theorem update_power_set_getD (base_set : List String) (i : ℕ)
    (hi : i < 2 ^ base_set.length) (d : SubsetRecord) :
    (update_power_set base_set).getD i d = mkRecord base_set i := by
  have hlen : i < (update_power_set base_set).length := by
    rw [update_power_set_length]
    exact hi
  rw [List.getD_eq_getElem _ _ hlen]
  simp [update_power_set]

/-! ### Lemmas about the loop -/

theorem foldl_loopStep_none (n : ℕ) (interrupted : ℕ → Bool)
    (l : List ℕ) :
    l.foldl (loopStep n interrupted) none = none := by
  induction l with
  | nil => rfl
  | cons a l ih => simpa [loopStep] using ih

theorem foldl_loopStep_all_false (n : ℕ) (interrupted : ℕ → Bool) :
    ∀ (l : List ℕ) (ps bl : List (ℝ × ℝ × ℝ)),
      (∀ i ∈ l, interrupted i = false) →
      l.foldl (loopStep n interrupted) (some (ps, bl)) =
        some (ps ++ l.map (power_point n), bl ++ l.map (binary_point n)) := by
  intro l
  induction l with
  | nil => intro ps bl _; simp
  | cons a l ih =>
    intro ps bl hall
    have ha : interrupted a = false := hall a (List.mem_cons_self a l)
    have hrest : ∀ i ∈ l, interrupted i = false :=
      fun i hi => hall i (List.mem_cons_of_mem a hi)
    rw [List.foldl_cons]
    simp only [loopStep, ha, Bool.false_eq_true, if_false]
    rw [ih (ps ++ [power_point n a]) (bl ++ [binary_point n a]) hrest]
    simp

theorem foldl_loopStep_mem_true (n : ℕ) (interrupted : ℕ → Bool) :
    ∀ (l : List ℕ) (ps bl : List (ℝ × ℝ × ℝ)),
      (∃ i ∈ l, interrupted i = true) →
      l.foldl (loopStep n interrupted) (some (ps, bl)) = none := by
  intro l
  induction l with
  | nil => intro ps bl h; simp at h
  | cons a l ih =>
    intro ps bl h
    rw [List.foldl_cons]
    by_cases ha : interrupted a = true
    · simp only [loopStep, ha, if_true]
      exact foldl_loopStep_none n interrupted l
    · have ha' : interrupted a = false := by
        cases hv : interrupted a
        · rfl
        · exact absurd hv ha
      obtain ⟨i, hi, hit⟩ := h
      rcases List.mem_cons.mp hi with rfl | hmem
      · exact absurd hit ha
      · simp only [loopStep, ha', Bool.false_eq_true, if_false]
        exact ih _ _ ⟨i, hmem, hit⟩

/-- When the interruption flag is never observed set, `run` emits the
full position lists, in index order. -/
theorem run_no_interruption (w : WorkerInput) (f : ℕ → Bool)
    (hf : ∀ t, t ≤ 2 ^ w.base_set.length → f t = false) :
    VisualizationWorker.run w f =
      some ⟨(List.range (2 ^ w.base_set.length)).map
              (power_point w.base_set.length),
            (List.range (2 ^ w.base_set.length)).map
              (binary_point w.base_set.length),
            w.base_set.length, w.current_index, w.show_labels,
            w.show_connections⟩ := by
  have hall : ∀ i ∈ List.range (2 ^ w.base_set.length), f i = false := by
    intro i hi
    exact hf i (Nat.le_of_lt (List.mem_range.mp hi))
  rw [VisualizationWorker.run]
  rw [foldl_loopStep_all_false _ f _ [] [] hall]
  simp [hf (2 ^ w.base_set.length) (Nat.le_refl _)]

/-- Specialization: a worker that is never interrupted. -/
theorem run_false (w : WorkerInput) :
    VisualizationWorker.run w (fun _ => false) =
      some ⟨(List.range (2 ^ w.base_set.length)).map
              (power_point w.base_set.length),
            (List.range (2 ^ w.base_set.length)).map
              (binary_point w.base_set.length),
            w.base_set.length, w.current_index, w.show_labels,
            w.show_connections⟩ :=
  run_no_interruption w (fun _ => false) (fun _ _ => rfl)

/-- A successful emission forces every check to have observed the flag
clear, so the payload is exactly the full position lists. -/
theorem run_eq_some (w : WorkerInput) (f : ℕ → Bool) (u : Updated)
    (hu : VisualizationWorker.run w f = some u) :
    u = ⟨(List.range (2 ^ w.base_set.length)).map
           (power_point w.base_set.length),
         (List.range (2 ^ w.base_set.length)).map
           (binary_point w.base_set.length),
         w.base_set.length, w.current_index, w.show_labels,
         w.show_connections⟩ := by
  by_cases hex : ∃ t, t ≤ 2 ^ w.base_set.length ∧ f t = true
  · exfalso
    obtain ⟨t, ht, hft⟩ := hex
    rcases Nat.lt_or_ge t (2 ^ w.base_set.length) with hlt | hge
    · rw [VisualizationWorker.run,
        foldl_loopStep_mem_true _ f _ [] [] ⟨t, List.mem_range.mpr hlt, hft⟩]
          at hu
      exact Option.noConfusion hu
    · have hteq : t = 2 ^ w.base_set.length := Nat.le_antisymm ht hge
      subst hteq
      rw [VisualizationWorker.run] at hu
      rcases hfold : (List.range (2 ^ w.base_set.length)).foldl
          (loopStep w.base_set.length f) (some ([], [])) with _ | pb
      · rw [hfold] at hu
        exact Option.noConfusion hu
      · rw [hfold] at hu
        obtain ⟨ps, bl⟩ := pb
        simp only [hft, if_true] at hu
        exact Option.noConfusion hu
  · have hf : ∀ t, t ≤ 2 ^ w.base_set.length → f t = false := by
      intro t ht
      cases hv : f t
      · rfl
      · exact absurd ⟨t, ht, hv⟩ hex
    rw [run_no_interruption w f hf] at hu
    exact (Option.some.injEq _ _ ▸ hu.symm) ▸ rfl

/-! ## Further support lemmas -/

theorem formatBin_zero (n : ℕ) (hn : 1 ≤ n) :
    formatBin n 0 = List.replicate n '0' := by
  rw [formatBin_eq_bitsRev_reverse n 0 hn (pow_pos (by norm_num) n),
    bitsRev_zero, List.reverse_replicate]

theorem mkRecord_binary (base_set : List String) (i : ℕ) :
    (mkRecord base_set i).binary = formatBin base_set.length i := rfl

theorem mkRecord_decimal (base_set : List String) (i : ℕ) :
    (mkRecord base_set i).decimal = i := rfl

theorem mkRecord_subset (base_set : List String) (i : ℕ) :
    (mkRecord base_set i).subset =
      subsetOf base_set (formatBin base_set.length i) := rfl

theorem mkRecord_subset_str (base_set : List String) (i : ℕ) :
    (mkRecord base_set i).subset_str =
      if (subsetOf base_set (formatBin base_set.length i)).length = 0
      then "∅"
      else "\x7b" ++ String.intercalate ", "
        (subsetOf base_set (formatBin base_set.length i)) ++ "\x7d" := rfl

theorem subsetOf_sublist (base_set : List String) (binary : List Char) :
    (subsetOf base_set binary).Sublist base_set := by
  have hbase : (List.range base_set.length).map
      (fun j => base_set.getD j "") = base_set := by
    apply List.ext_getElem
    · simp
    · intro k h1 h2
      simp only [List.getElem_map, List.getElem_range]
      rw [List.getD_eq_getElem]
  have hf : ((List.range base_set.length).filter
      (fun j => binary.getD j ' ' = '1')).Sublist
      (List.range base_set.length) := List.filter_sublist _
  have := hf.map (fun j => base_set.getD j "")
  rw [hbase] at this
  exact this

/-- Every position below `n` of the filtered index list characterizes
membership of the corresponding element, provided the base set has no
duplicate labels. -/
theorem subsetOf_mem_iff (base_set : List String) (binary : List Char)
    (hnd : base_set.Nodup) (j : ℕ) (hj : j < base_set.length) :
    base_set.getD j "" ∈ subsetOf base_set binary ↔
      binary.getD j ' ' = '1' := by
  constructor
  · intro hmem
    obtain ⟨j', hj', heq⟩ := List.mem_map.mp hmem
    have hj'range : j' ∈ List.range base_set.length :=
      List.mem_of_mem_filter hj'
    have hj'lt : j' < base_set.length := List.mem_range.mp hj'range
    have hcond := List.of_mem_filter hj'
    have hjj : j' = j := by
      rw [List.getD_eq_getElem _ _ hj'lt, List.getD_eq_getElem _ _ hj] at heq
      exact (hnd.getElem_inj_iff).mp heq
    subst hjj
    simpa using hcond
  · intro hbit
    apply List.mem_map_of_mem
    apply List.mem_filter.mpr
    exact ⟨List.mem_range.mpr hj, by simpa using hbit⟩

/-- The subset of record `i` is empty exactly when `i = 0`. -/
theorem subsetOf_formatBin_eq_nil_iff (base_set : List String) (i : ℕ)
    (hn : 1 ≤ base_set.length) (hi : i < 2 ^ base_set.length) :
    subsetOf base_set (formatBin base_set.length i) = [] ↔ i = 0 := by
  constructor
  · intro hnil
    have hfilter : (List.range base_set.length).filter
        (fun j => (formatBin base_set.length i).getD j ' ' = '1') = [] :=
      List.map_eq_nil_iff.mp hnil
    have hnobit : ∀ j < base_set.length,
        ¬ ((formatBin base_set.length i).getD j ' ' = '1') := by
      intro j hj hone
      have hjmem : j ∈ List.range base_set.length := List.mem_range.mpr hj
      have := List.filter_eq_nil_iff.mp hfilter j hjmem
      simp only [decide_eq_true_eq] at this
      exact this hone
    have htest : ∀ k, i.testBit k = false := by
      intro k
      by_cases hk : k < base_set.length
      · have hj : base_set.length - 1 - k < base_set.length := by omega
        have hchar := formatBin_getD base_set.length i
          (base_set.length - 1 - k) hn hi hj
        have hkk : base_set.length - 1 - (base_set.length - 1 - k) = k := by
          omega
        rw [hkk] at hchar
        by_cases hbit : i.testBit k
        · exfalso
          apply hnobit (base_set.length - 1 - k) hj
          rw [hchar, if_pos hbit]
        · simpa using hbit
      · apply Nat.testBit_lt_two_pow
        calc i < 2 ^ base_set.length := hi
          _ ≤ 2 ^ k := Nat.pow_le_pow_right (by norm_num) (by omega)
    have : i = 0 := Nat.eq_of_testBit_eq (fun k => by
      rw [htest k, Nat.zero_testBit])
    exact this
  · intro h0
    subst h0
    rw [formatBin_zero base_set.length hn]
    apply List.map_eq_nil_iff.mpr
    apply List.filter_eq_nil_iff.mpr
    intro j hj
    have : (List.replicate base_set.length '0').getD j ' ' ≠ '1' := by
      by_cases hjl : j < base_set.length
      · rw [List.getD_eq_getElem _ _ (by simpa using hjl),
          List.getElem_replicate]
        decide
      · rw [List.getD_eq_default _ _ (by simpa using Nat.le_of_not_lt hjl)]
        decide
    simpa using this

/-! ## Claim theorems: the enumerator -/

/-- C1: for every base set of size `n` in `[1, 6]` and every
`i < 2 ^ n`, the binary string stored in the `i`-th `SubsetRecord`
produced by `update_power_set`, parsed as a base-2 integer, equals `i`. -/
theorem claim_C1_roundtrip (base_set : List String)
    (_h1 : 1 ≤ base_set.length) (_h6 : base_set.length ≤ 6)
    (i : ℕ) (hi : i < 2 ^ base_set.length) :
    parseBin ((update_power_set base_set).getD i default).binary = i := by
  rw [update_power_set_getD base_set i hi, mkRecord_binary,
    parseBin_formatBin]

theorem claim_C1_roundtrip_witness :
    parseBin ((update_power_set ["a", "b", "c"]).getD 5 default).binary
      = 5 :=
  claim_C1_roundtrip ["a", "b", "c"] (by decide) (by decide) 5 (by decide)

/-- C2: `update_power_set` produces exactly `2 ^ n` records, in order
`i = 0 .. 2 ^ n - 1`, whose binary strings are pairwise distinct and,
parsed as base-2 integers, cover every value in `[0, 2 ^ n)` exactly
once. -/
theorem claim_C2_enumeration (base_set : List String) :
    (update_power_set base_set).length = 2 ^ base_set.length ∧
    (update_power_set base_set).map SubsetRecord.decimal =
      List.range (2 ^ base_set.length) ∧
    ((update_power_set base_set).map SubsetRecord.binary).Nodup ∧
    (update_power_set base_set).map (fun r => parseBin r.binary) =
      List.range (2 ^ base_set.length) := by
  have hdec : (update_power_set base_set).map SubsetRecord.decimal =
      List.range (2 ^ base_set.length) := by
    rw [update_power_set, List.map_map]
    have : (SubsetRecord.decimal ∘ mkRecord base_set) = fun i => i := by
      funext i
      simp [Function.comp, mkRecord_decimal]
    rw [this, List.map_id']
  have hparse : (update_power_set base_set).map
      (fun r => parseBin r.binary) = List.range (2 ^ base_set.length) := by
    rw [update_power_set, List.map_map]
    have : ((fun r => parseBin r.binary) ∘ mkRecord base_set) =
        fun i => i := by
      funext i
      simp [Function.comp, mkRecord_binary, parseBin_formatBin]
    rw [this, List.map_id']
  refine ⟨update_power_set_length base_set, hdec, ?_, hparse⟩
  apply List.Nodup.of_map parseBin
  rw [List.map_map]
  have heq : (parseBin ∘ SubsetRecord.binary) =
      fun r => parseBin r.binary := rfl
  rw [heq, hparse]
  exact List.nodup_range _

/-- C3: element `j` of the base set belongs to the subset of record `i`
exactly when character `j` (most-significant bit first) of the record's
binary string is `'1'`, and the subset lists its members in base-set
order (it is a sublist of the base set). -/
theorem claim_C3_membership (base_set : List String) (hnd : base_set.Nodup)
    (i j : ℕ) (hi : i < 2 ^ base_set.length) (hj : j < base_set.length) :
    (base_set.getD j "" ∈
        ((update_power_set base_set).getD i default).subset ↔
      ((update_power_set base_set).getD i default).binary.getD j ' '
        = '1') ∧
    ((update_power_set base_set).getD i default).subset.Sublist base_set := by
  rw [update_power_set_getD base_set i hi, mkRecord_subset, mkRecord_binary]
  exact ⟨subsetOf_mem_iff base_set _ hnd j hj, subsetOf_sublist base_set _⟩

theorem claim_C3_membership_witness :
    ((["a", "b"] : List String).getD 1 "" ∈
        ((update_power_set ["a", "b"]).getD 3 default).subset ↔
      ((update_power_set ["a", "b"]).getD 3 default).binary.getD 1 ' '
        = '1') ∧
    ((update_power_set ["a", "b"]).getD 3 default).subset.Sublist
      ["a", "b"] :=
  claim_C3_membership ["a", "b"] (by decide) 3 1 (by decide) (by decide)

/-- C8: the empty subset (record `i = 0`) is formatted exactly as `"∅"`,
a record with nonzero index has a nonempty subset formatted as a
brace-delimited comma-joined list, and for a one-element base set the
enumerator yields exactly the two records of the concrete scenario. -/
theorem claim_C8_formatting (base_set : List String)
    (hn : 1 ≤ base_set.length) (i : ℕ) (hi : i < 2 ^ base_set.length)
    (hz : i ≠ 0) :
    ((update_power_set base_set).getD 0 default).subset = [] ∧
    ((update_power_set base_set).getD 0 default).subset_str = "∅" ∧
    ((update_power_set base_set).getD i default).subset ≠ [] ∧
    ((update_power_set base_set).getD i default).subset_str =
      "\x7b" ++ String.intercalate ", "
        ((update_power_set base_set).getD i default).subset ++ "\x7d" ∧
    update_power_set ["x1"] =
      [⟨[], "∅", ['0'], 0⟩, ⟨["x1"], "\x7bx1\x7d", ['1'], 1⟩] := by
  have h0lt : 0 < 2 ^ base_set.length := pow_pos (by norm_num) _
  have hzero : subsetOf base_set (formatBin base_set.length 0) = [] :=
    (subsetOf_formatBin_eq_nil_iff base_set 0 hn h0lt).mpr rfl
  have hnonnil :
      subsetOf base_set (formatBin base_set.length i) ≠ [] := by
    intro hnil
    exact hz ((subsetOf_formatBin_eq_nil_iff base_set i hn hi).mp hnil)
  refine ⟨?_, ?_, ?_, ?_, by rfl⟩
  · rw [update_power_set_getD base_set 0 h0lt, mkRecord_subset]
    exact hzero
  · rw [update_power_set_getD base_set 0 h0lt, mkRecord_subset_str, hzero]
    rfl
  · rw [update_power_set_getD base_set i hi, mkRecord_subset]
    exact hnonnil
  · have hlen : ¬ ((subsetOf base_set
        (formatBin base_set.length i)).length = 0) := by
      intro h
      exact hnonnil (List.length_eq_zero.mp h)
    rw [update_power_set_getD base_set i hi, mkRecord_subset_str,
      mkRecord_subset, if_neg hlen]

theorem claim_C8_formatting_witness :
    ((update_power_set ["a", "b"]).getD 0 default).subset = [] ∧
    ((update_power_set ["a", "b"]).getD 0 default).subset_str = "∅" ∧
    ((update_power_set ["a", "b"]).getD 3 default).subset ≠ [] ∧
    ((update_power_set ["a", "b"]).getD 3 default).subset_str =
      "\x7b" ++ String.intercalate ", "
        ((update_power_set ["a", "b"]).getD 3 default).subset ++ "\x7d" ∧
    update_power_set ["x1"] =
      [⟨[], "∅", ['0'], 0⟩, ⟨["x1"], "\x7bx1\x7d", ['1'], 1⟩] :=
  claim_C8_formatting ["a", "b"] (by decide) 3 (by decide) (by decide)

/-! ## Support lemmas for the placement claims -/

theorem run_of_interruption (w : WorkerInput) (f : ℕ → Bool)
    (hex : ∃ t, t ≤ 2 ^ w.base_set.length ∧ f t = true) :
    VisualizationWorker.run w f = none := by
  obtain ⟨t, ht, hft⟩ := hex
  rcases Nat.lt_or_ge t (2 ^ w.base_set.length) with hlt | hge
  · rw [VisualizationWorker.run,
      foldl_loopStep_mem_true _ f _ [] [] ⟨t, List.mem_range.mpr hlt, hft⟩]
  · have hteq : t = 2 ^ w.base_set.length := Nat.le_antisymm ht hge
    subst hteq
    rw [VisualizationWorker.run]
    rcases hfold : (List.range (2 ^ w.base_set.length)).foldl
        (loopStep w.base_set.length f) (some ([], [])) with _ | pb
    · rfl
    · obtain ⟨ps, bl⟩ := pb
      simp only [hft, if_true]

theorem power_point_fst_sq_add_snd_sq (n i : ℕ) :
    (power_point n i).1 ^ 2 + (power_point n i).2.1 ^ 2 = 3 / 4 := by
  have hsq : Real.sin phi ^ 2 = 3 / 4 := by
    rw [phi, Real.sin_pi_div_three]
    rw [div_pow, Real.sq_sqrt (by norm_num : (3 : ℝ) ≥ 0)]
    norm_num
  have : (power_point n i).1 ^ 2 + (power_point n i).2.1 ^ 2 =
      Real.sin phi ^ 2 *
        (Real.cos (theta n i) ^ 2 + Real.sin (theta n i) ^ 2) := by
    simp only [power_point]
    ring
  rw [this, Real.cos_sq_add_sin_sq, mul_one, hsq]

theorem binary_point_eq_reflected (n i : ℕ) :
    binary_point n i =
      ((power_point n i).1, (power_point n i).2.1,
        -(power_point n i).2.2) := by
  simp only [binary_point, power_point, phi2, Real.sin_pi_sub,
    Real.cos_pi_sub]

theorem binary_point_fst_sq_add_snd_sq (n i : ℕ) :
    (binary_point n i).1 ^ 2 + (binary_point n i).2.1 ^ 2 = 3 / 4 := by
  rw [binary_point_eq_reflected]
  exact power_point_fst_sq_add_snd_sq n i

/-! ## Claim theorems: the placement computer -/

/-- C4: for every worker input and every `i < 2 ^ n`, an uninterrupted
run emits at position `i` exactly the power-set point
`(sin(π/3)cos θ, sin(π/3)sin θ, cos(π/3))` and the binary point
`(sin(π-π/3)cos θ, sin(π-π/3)sin θ, cos(π-π/3))` with
`θ = (i / 2^n)·2π`; and in the concrete scenario `n = 3`, `i = 5` the
azimuth is `(5/8)·2π = 225°`, the binary string is `"101"` and the
subset is `{x1, x3}`. -/
theorem claim_C4_placement (w : WorkerInput) (i : ℕ)
    (hi : i < 2 ^ w.base_set.length) (u : Updated)
    (hu : VisualizationWorker.run w (fun _ => false) = some u) :
    u.power_set_positions.getD i (0, 0, 0) =
      (Real.sin (Real.pi / 3) *
         Real.cos (((i : ℝ) / ((2 : ℝ) ^ w.base_set.length)) *
           (2 * Real.pi)),
       Real.sin (Real.pi / 3) *
         Real.sin (((i : ℝ) / ((2 : ℝ) ^ w.base_set.length)) *
           (2 * Real.pi)),
       Real.cos (Real.pi / 3)) ∧
    u.binary_positions.getD i (0, 0, 0) =
      (Real.sin (Real.pi - Real.pi / 3) *
         Real.cos (((i : ℝ) / ((2 : ℝ) ^ w.base_set.length)) *
           (2 * Real.pi)),
       Real.sin (Real.pi - Real.pi / 3) *
         Real.sin (((i : ℝ) / ((2 : ℝ) ^ w.base_set.length)) *
           (2 * Real.pi)),
       Real.cos (Real.pi - Real.pi / 3)) ∧
    theta 3 5 = ((5 : ℝ) / 8) * (2 * Real.pi) ∧
    theta 3 5 = (225 : ℝ) * (Real.pi / 180) ∧
    ((update_power_set ["x1", "x2", "x3"]).getD 5 default).binary =
      ['1', '0', '1'] ∧
    ((update_power_set ["x1", "x2", "x3"]).getD 5 default).subset =
      ["x1", "x3"] := by
  have hu' := run_eq_some w (fun _ => false) u hu
  subst hu'
  have hth : theta w.base_set.length i =
      ((i : ℝ) / ((2 : ℝ) ^ w.base_set.length)) * (2 * Real.pi) := by
    rw [theta, mul_assoc]
  have hmem : i < (List.range (2 ^ w.base_set.length)).length := by
    simpa using hi
  constructor
  · show ((List.range (2 ^ w.base_set.length)).map
        (power_point w.base_set.length)).getD i (0, 0, 0) = _
    rw [List.getD_eq_getElem _ _ (by simpa using hi), List.getElem_map,
      List.getElem_range]
    rw [power_point, phi, hth]
  constructor
  · show ((List.range (2 ^ w.base_set.length)).map
        (binary_point w.base_set.length)).getD i (0, 0, 0) = _
    rw [List.getD_eq_getElem _ _ (by simpa using hi), List.getElem_map,
      List.getElem_range]
    rw [binary_point, phi2, phi, hth]
  refine ⟨?_, ?_, by decide, by decide⟩
  · rw [theta]
    norm_num
    ring
  · rw [theta]
    norm_num
    ring

theorem claim_C4_placement_witness :
    theta 3 5 = ((5 : ℝ) / 8) * (2 * Real.pi) :=
  (claim_C4_placement ⟨["a", "b", "c"], 0, true, true⟩ 5 (by decide)
    ⟨(List.range (2 ^ 3)).map (power_point 3),
     (List.range (2 ^ 3)).map (binary_point 3), 3, 0, true, true⟩
    (run_false ⟨["a", "b", "c"], 0, true, true⟩)).2.2.1

/-- C5: every emitted power-set point has `z = cos(π/3) = 1/2` and
`x² + y² = sin²(π/3) = 3/4`, and every emitted binary point has
`z = -1/2` and `x² + y² = 3/4`, for every worker input and every
interruption history. -/
theorem claim_C5_polar_invariant (w : WorkerInput) (f : ℕ → Bool) :
    ((VisualizationWorker.run w f).map
        (fun u => u.power_set_positions.map (fun p => p.2.2))) =
      ((VisualizationWorker.run w f).map
        (fun _ => List.replicate (2 ^ w.base_set.length)
          (Real.cos (Real.pi / 3)))) ∧
    Real.cos (Real.pi / 3) = 1 / 2 ∧
    Real.sin (Real.pi / 3) ^ 2 = 3 / 4 ∧
    ((VisualizationWorker.run w f).map
        (fun u => u.power_set_positions.map
          (fun p => p.1 ^ 2 + p.2.1 ^ 2))) =
      ((VisualizationWorker.run w f).map
        (fun _ => List.replicate (2 ^ w.base_set.length) ((3 : ℝ) / 4))) ∧
    ((VisualizationWorker.run w f).map
        (fun u => u.binary_positions.map (fun p => p.2.2))) =
      ((VisualizationWorker.run w f).map
        (fun _ => List.replicate (2 ^ w.base_set.length)
          (-(1 / 2) : ℝ))) ∧
    ((VisualizationWorker.run w f).map
        (fun u => u.binary_positions.map
          (fun p => p.1 ^ 2 + p.2.1 ^ 2))) =
      ((VisualizationWorker.run w f).map
        (fun _ => List.replicate (2 ^ w.base_set.length) ((3 : ℝ) / 4))) := by
  have hsin : Real.sin (Real.pi / 3) ^ 2 = 3 / 4 := by
    rw [Real.sin_pi_div_three, div_pow,
      Real.sq_sqrt (by norm_num : (3 : ℝ) ≥ 0)]
    norm_num
  rcases hrun : VisualizationWorker.run w f with _ | u
  · exact ⟨rfl, Real.cos_pi_div_three, hsin, rfl, rfl, rfl⟩
  · have hu := run_eq_some w f u hrun
    subst hu
    simp only [Option.map_some']
    refine ⟨?_, Real.cos_pi_div_three, hsin, ?_, ?_, ?_⟩
    · congr 1
      rw [List.map_map]
      have : ((fun p => p.2.2) ∘ power_point w.base_set.length :
          ℕ → ℝ) = fun _ => Real.cos (Real.pi / 3) := by
        funext i
        simp [Function.comp, power_point, phi]
      rw [this, List.map_const']
      simp
    · congr 1
      rw [List.map_map]
      have : ((fun p => p.1 ^ 2 + p.2.1 ^ 2) ∘
          power_point w.base_set.length : ℕ → ℝ) =
          fun _ => (3 : ℝ) / 4 := by
        funext i
        simp [Function.comp, power_point_fst_sq_add_snd_sq]
      rw [this, List.map_const']
      simp
    · congr 1
      rw [List.map_map]
      have : ((fun p => p.2.2) ∘ binary_point w.base_set.length :
          ℕ → ℝ) = fun _ => (-(1 / 2) : ℝ) := by
        funext i
        simp only [Function.comp, binary_point, phi2, phi,
          Real.cos_pi_sub, Real.cos_pi_div_three]
      rw [this, List.map_const']
      simp
    · congr 1
      rw [List.map_map]
      have : ((fun p => p.1 ^ 2 + p.2.1 ^ 2) ∘
          binary_point w.base_set.length : ℕ → ℝ) =
          fun _ => (3 : ℝ) / 4 := by
        funext i
        simp [Function.comp, binary_point_fst_sq_add_snd_sq]
      rw [this, List.map_const']
      simp

/-- C7: if the interruption flag is observed set at any of the checks
(one per index, plus the final pre-emission check), `run` publishes no
result: the `updated` signal is never emitted.  The embedding is a total
function, so no exception is possible. -/
theorem claim_C7_cancellation (w : WorkerInput) (f : ℕ → Bool)
    (hex : ∃ t, t ≤ 2 ^ w.base_set.length ∧ f t = true) :
    VisualizationWorker.run w f = none :=
  run_of_interruption w f hex

theorem claim_C7_cancellation_witness :
    VisualizationWorker.run ⟨["a", "b"], 0, true, true⟩
      (fun t => decide (t = 1)) = none :=
  claim_C7_cancellation ⟨["a", "b"], 0, true, true⟩
    (fun t => decide (t = 1)) ⟨1, by decide, by decide⟩

/-- C9: the emitted positions are a pure, deterministic function of the
base-set size alone — two workers whose base sets have equal length
emit identical coordinate lists, whatever their other inputs. -/
theorem claim_C9_determinism (w₁ w₂ : WorkerInput) (f : ℕ → Bool)
    (h : w₁.base_set.length = w₂.base_set.length) :
    (VisualizationWorker.run w₁ f).map
        (fun u => (u.power_set_positions, u.binary_positions)) =
      (VisualizationWorker.run w₂ f).map
        (fun u => (u.power_set_positions, u.binary_positions)) := by
  by_cases hex : ∃ t, t ≤ 2 ^ w₁.base_set.length ∧ f t = true
  · rw [run_of_interruption w₁ f hex,
      run_of_interruption w₂ f (by rw [← h]; exact hex)]
  · have hf : ∀ t, t ≤ 2 ^ w₁.base_set.length → f t = false := by
      intro t ht
      cases hv : f t
      · rfl
      · exact absurd ⟨t, ht, hv⟩ hex
    have hf₂ : ∀ t, t ≤ 2 ^ w₂.base_set.length → f t = false := by
      rw [← h]
      exact hf
    rw [run_no_interruption w₁ f hf, run_no_interruption w₂ f hf₂,
      Option.map_some', Option.map_some', h]

theorem claim_C9_determinism_witness :
    (VisualizationWorker.run ⟨["a", "b"], 0, true, true⟩
        (fun _ => false)).map
        (fun u => (u.power_set_positions, u.binary_positions)) =
      (VisualizationWorker.run ⟨["x", "y"], 3, false, false⟩
        (fun _ => false)).map
        (fun u => (u.power_set_positions, u.binary_positions)) :=
  claim_C9_determinism ⟨["a", "b"], 0, true, true⟩
    ⟨["x", "y"], 3, false, false⟩ (fun _ => false) rfl

/-- C10: whatever the worker emits, the binary-point list is the
power-point list reflected through the plane `z = 0`: same `x` and `y`,
negated `z`, so each connecting segment is a vertical chord. -/
theorem claim_C10_reflection (w : WorkerInput) (f : ℕ → Bool) :
    (VisualizationWorker.run w f).map Updated.binary_positions =
      (VisualizationWorker.run w f).map
        (fun u => u.power_set_positions.map
          (fun p => (p.1, p.2.1, -p.2.2))) := by
  rcases hrun : VisualizationWorker.run w f with _ | u
  · rfl
  · have hu := run_eq_some w f u hrun
    subst hu
    simp only [Option.map_some']
    congr 1
    rw [List.map_map]
    apply List.map_congr_left
    intro i _
    simp only [Function.comp]
    exact binary_point_eq_reflected w.base_set.length i

/-- C6 fails on the code: in the two-request scenario the first (stale)
worker's payload (here with `n = 1`) is delivered to the renderer before
the second one's (`n = 2`), because `quit()` does not interrupt the
computation loop and the flag is never requested.  The claim asserts the
first result is never delivered; this theorem exhibits it delivered. -/
theorem claim_C6_stale_result_delivered :
    (scenario_delivered ⟨["a"], 0, true, true⟩
        ⟨["a", "b"], 0, true, true⟩).map Updated.n = [1, 2] := by
  rw [scenario_delivered, run_false, run_false]
  rfl

end BitSphere
